import Mathlib

/-!
Shallow embedding of the Typst-SSG build pipeline (src/pipeline.js and
src/build.js) together with proofs about its layout resolution, style
merging, import rewriting, route mapping and incremental scheduling.

All definitions in the first part of the file are direct translations of
the JavaScript source.  String-level pattern matching (the JavaScript
regular expressions) is translated into deterministic character scanners;
each scanner follows the backtracking behaviour of the original regex,
which is deterministic for these particular patterns because every
boundary between adjacent sub-patterns is over disjoint character sets.
-/

/-- JavaScript `\s` / `trim` whitespace (the characters that can actually
occur in the sources handled here: ASCII whitespace plus NBSP). -/
def jsWs (c : Char) : Bool :=
  c = ' ' || c = '\t' || c = '\n' || c = '\r' ||
  c = Char.ofNat 11 || c = Char.ofNat 12 || c = Char.ofNat 160

/-- JavaScript `\w` word characters: `[A-Za-z0-9_]`. -/
def isWordChar (c : Char) : Bool :=
  ('a' ≤ c && c ≤ 'z') || ('A' ≤ c && c ≤ 'Z') || ('0' ≤ c && c ≤ '9') || c = '_'

/-- Match a literal prefix; on success return the remainder. -/
def dropLit : List Char → List Char → Option (List Char)
  | [], cs => some cs
  | _ :: _, [] => none
  | p :: ps, c :: cs => if p = c then dropLit ps cs else none

/-- `String.prototype.trimStart` on a character list. -/
def jsTrimStartL (cs : List Char) : List Char := cs.dropWhile jsWs

/-- `String.prototype.trim` on a character list. -/
def jsTrimL (cs : List Char) : List Char :=
  ((cs.dropWhile jsWs).reverse.dropWhile jsWs).reverse

/-- `String.prototype.trim`. -/
def jsTrim (s : String) : String := String.mk (jsTrimL s.data)

/-- JavaScript `String.prototype.split` with a one-character separator,
on a character list.  The result list is never empty. -/
def splitOnChar (sep : Char) : List Char → List (List Char)
  | [] => [[]]
  | c :: rest =>
    match splitOnChar sep rest with
    | [] => [[]]
    | h :: t => if c = sep then [] :: h :: t else (c :: h) :: t

/-- JavaScript `String.prototype.split` with a one-character separator. -/
def jsSplit (sep : Char) (s : String) : List String :=
  (splitOnChar sep s.data).map String.mk

/-- JavaScript `Array.prototype.join`. -/
def joinWith (sep : String) : List String → String
  | [] => ""
  | [x] => x
  | x :: y :: rest => x ++ sep ++ joinWith sep (y :: rest)

/-- Does the string begin with a `/` character? -/
def beginsWithSlash (s : String) : Bool := s.data.head? = some '/'

/-- Does the string end with a `/` character? -/
def endsWithSlash (s : String) : Bool := s.data.getLast? = some '/'

/-! ## Route mapper (src/pipeline.js) -/

/-- `path.extname` for a path segment (no directory separators): the
substring from the last `.`, empty when there is no dot or the only dot is
the leading character. -/
def jsExtname (f : String) : String :=
  match (f.data.reverse.findIdx? (· = '.')).map (fun j => f.data.length - 1 - j) with
  | none => ""
  | some 0 => ""
  | some i => String.mk (f.data.drop i)

/-- `path.basename(f, ext)` for a path segment: strips `ext` when it is a
proper suffix of `f`. -/
def jsBasename (f ext : String) : String :=
  if ext ≠ "" ∧ ext ≠ f ∧ ext.data.isSuffixOf f.data then
    String.mk (f.data.take (f.data.length - ext.data.length))
  else f

/-- `pathToRoute` from src/pipeline.js, on an actual array argument. -/
def pathToRoute (filePath : List String) : String :=
  if filePath.isEmpty then "/"
  else
    let filename := (filePath.getLast?).getD ""
    if filename = "index.typ" then
      let parentPath := filePath.dropLast
      if parentPath.isEmpty then "/"
      else "/" ++ String.intercalate "/" parentPath ++ "/"
    else
      let stem := jsBasename filename (jsExtname filename)
      let dirPath := filePath.dropLast
      if dirPath.isEmpty then "/" ++ stem ++ "/"
      else "/" ++ String.intercalate "/" dirPath ++ "/" ++ stem ++ "/"

/-- Build output paths returned by `routeToBuildPath`. -/
structure BuildPaths where
  dir : String
  pdfPath : String
  htmlPath : String
deriving DecidableEq

/-- The effect of `route.replace(/^\/+|\/+$/g, "")`: remove the maximal
leading run and the maximal trailing run of slashes. -/
def stripSlashesBoth (s : String) : String :=
  String.mk (((s.data.dropWhile (· = '/')).reverse.dropWhile (· = '/')).reverse)

/-- `routeToBuildPath` from src/pipeline.js. -/
def routeToBuildPath (route : String) : BuildPaths :=
  let cleanRoute := stripSlashesBoth route
  if cleanRoute = "" then
    { dir := "", pdfPath := "index.pdf", htmlPath := "index.html" }
  else
    { dir := cleanRoute
      pdfPath := cleanRoute ++ "/index.pdf"
      htmlPath := cleanRoute ++ "/index.html" }

/-! ## Pages tree (the nested object produced by readTree) -/

/-- The in-memory pages tree: a JavaScript object whose values are either
strings (file contents) or nested objects. -/
inductive JsTree where
  | leaf (content : String)
  | node (children : List (String × JsTree))

/-- Object property lookup (`segment in node` followed by `node[segment]`). -/
def JsTree.child : JsTree → String → Option JsTree
  | .leaf _, _ => none
  | .node cs, k => (cs.find? (fun p => p.1 = k)).map (·.2)

/-- The descend loop used throughout build.js:
`node && typeof node === "object" && segment in node` at every step. -/
def walkPath : JsTree → List String → Option JsTree
  | t, [] => some t
  | t, seg :: rest =>
    match t.child seg with
    | some t2 => walkPath t2 rest
    | none => none

/-! ## isLayoutFile (src/build.js) -/

/-- Three backtick characters: the fenced-code-block marker. -/
def fenceMarker : List Char := [Char.ofNat 96, Char.ofNat 96, Char.ofNat 96]

/-- `line.trimStart().startsWith("...")` for the fence marker. -/
def lineIsFence (line : String) : Bool := fenceMarker.isPrefixOf (jsTrimStartL line.data)

/-- `line.trimStart().startsWith("//")`. -/
def lineIsComment (line : String) : Bool := ['/', '/'].isPrefixOf (jsTrimStartL line.data)

/-- Prefix match of the regex `#let\s+layout\s*\(\s*body\s*\)\s*=` at the
head of the character list. -/
def matchLayoutHead (cs : List Char) : Bool :=
  match dropLit "#let".data cs with
  | none => false
  | some r1 =>
    let w1 := r1.takeWhile jsWs
    if w1.isEmpty then false
    else
      match dropLit "layout".data (r1.dropWhile jsWs) with
      | none => false
      | some r2 =>
        match (r2.dropWhile jsWs) with
        | '(' :: r3 =>
          match dropLit "body".data (r3.dropWhile jsWs) with
          | none => false
          | some r4 =>
            match (r4.dropWhile jsWs) with
            | ')' :: r5 =>
              match (r5.dropWhile jsWs) with
              | '=' :: _ => true
              | _ => false
            | _ => false
        | _ => false

/-- `regex.test(line)`: does the layout-head pattern match at any position? -/
def hasLayoutDecl : List Char → Bool
  | [] => false
  | c :: rest => matchLayoutHead (c :: rest) || hasLayoutDecl rest

/-- The per-line test `/#let\s+layout\s*\(\s*body\s*\)\s*=/.test(line)`. -/
def lineHasLayoutDecl (line : String) : Bool := hasLayoutDecl line.data

/-- The scanning loop of `isLayoutFile`, carrying the `inCodeBlock` flag. -/
def isLayoutFileGo : List String → Bool → Bool
  | [], _ => false
  | line :: rest, inCodeBlock =>
    if lineIsFence line then isLayoutFileGo rest (!inCodeBlock)
    else if inCodeBlock then isLayoutFileGo rest inCodeBlock
    else if lineIsComment line then isLayoutFileGo rest inCodeBlock
    else if lineHasLayoutDecl line then true
    else isLayoutFileGo rest inCodeBlock

/-- `isLayoutFile` from src/build.js (the argument is already known to be
a string at every call site modelled here). -/
def isLayoutFile (typstSource : String) : Bool :=
  isLayoutFileGo (jsSplit '\n' typstSource) false

/-- Specification helper: the code-fence parity after a prefix of lines
(`inCodeBlock` after processing those lines). -/
def fenceParity (lines : List String) : Bool :=
  lines.foldl (fun b l => if lineIsFence l then !b else b) false

/-! ## rewriteImports (src/build.js) -/

/-- `PAGES_DIR_NAME` constant of build.js. -/
def pagesDirName : String := "pages"

/-- JavaScript `Array.prototype.pop()` applied `n` times: popping an empty
array is a no-op. -/
def popN : List String → Nat → List String
  | l, 0 => l
  | l, n + 1 => popN l.dropLast n

/-- The replacement computed for one relative import path by the callback
of `rewriteImports` (the `importPath.startsWith(".")` case). -/
def rewriteOne (fromDir toDir : List String) (importPath : String) : String :=
  let parts := jsSplit '/' importPath
  let upCount := parts.findIdx? (fun p => p ≠ "..")
  let pathSegments := match upCount with
    | none => []
    | some k => parts.drop k
  let popCount := match upCount with
    | none => parts.length
    | some k => k
  let absolutePath := popN (pagesDirName :: fromDir) popCount ++ pathSegments
  let tempDirPath :=
    if absolutePath.head? = some pagesDirName then absolutePath.tail else absolutePath
  String.join (List.replicate toDir.length "../") ++ String.intercalate "/" tempDirPath

/-- Prefix match of the regex `#import\s+"([^"]+)"`: on success returns
the whitespace run, the captured import path, and the remainder after the
closing quote. -/
def matchImportAt (cs : List Char) : Option (List Char × List Char × List Char) :=
  match dropLit "#import".data cs with
  | none => none
  | some r1 =>
    if (r1.takeWhile jsWs).isEmpty then none
    else
      match dropLit ['"'] (r1.dropWhile jsWs) with
      | none => none
      | some r3 =>
        if (r3.takeWhile (fun c => c ≠ '"')).isEmpty then none
        else
          match dropLit ['"'] (r3.dropWhile (fun c => c ≠ '"')) with
          | none => none
          | some rem => some (r1.takeWhile jsWs, r3.takeWhile (fun c => c ≠ '"'), rem)

/-- The global regex replace of `rewriteImports`: scan left to right, on a
match emit the callback's replacement and continue after the match.  The
first argument is fuel; the wrapper passes the input length, which is
sufficient because every step consumes at least one character. -/
def rewriteScan (fromDir toDir : List String) : Nat → List Char → List Char
  | 0, cs => cs
  | _ + 1, [] => []
  | fuel + 1, c :: rest =>
    match matchImportAt (c :: rest) with
    | some (ws, pcs, rem) =>
      (if pcs.head? = some '.' then
        "#import \"".data ++ (rewriteOne fromDir toDir (String.mk pcs)).data ++ ['"']
      else
        "#import".data ++ ws ++ '"' :: (pcs ++ '"' :: []))
      ++ rewriteScan fromDir toDir fuel rem
    | none => c :: rewriteScan fromDir toDir fuel rest

/-- `rewriteImports` from src/build.js. -/
def rewriteImports (source : String) (fromPathArray toPathArray : List String) : String :=
  let fromDir := fromPathArray.dropLast
  let toDir := toPathArray.dropLast
  String.mk (rewriteScan fromDir toDir source.data.length source.data)

/-- Specification-side scanner: `true` when every import directive that
the rewrite scanner would match has a path that does not begin with `.`
(the absolute / package-style case). -/
def noRelativeImports : Nat → List Char → Bool
  | 0, _ => true
  | _ + 1, [] => true
  | fuel + 1, c :: rest =>
    match matchImportAt (c :: rest) with
    | some (_, pcs, rem) => (pcs.head? ≠ some '.' : Bool) && noRelativeImports fuel rem
    | none => noRelativeImports fuel rest

/-! ## extractSetStatements (src/build.js) -/

/-- Prefix match of `#let\s+layout\s*\([^)]*\)\s*=\s*\{`: on success
returns the remainder after the opening brace. -/
def matchHeaderAt (cs : List Char) : Option (List Char) :=
  match dropLit "#let".data cs with
  | none => none
  | some r1 =>
    let w1 := r1.takeWhile jsWs
    if w1.isEmpty then none
    else
      match dropLit "layout".data (r1.dropWhile jsWs) with
      | none => none
      | some r2 =>
        match r2.dropWhile jsWs with
        | '(' :: r3 =>
          match r3.dropWhile (fun c => c ≠ ')') with
          | ')' :: r4 =>
            match r4.dropWhile jsWs with
            | '=' :: r5 =>
              match r5.dropWhile jsWs with
              | c6 :: r6 => if c6 = Char.ofNat 123 then some r6 else none
              | [] => none
            | _ => none
          | _ => none
        | _ => none

/-- Everything before the last closing brace (the greedy `([\s\S]*)\}`
capture); meaningful only when the list contains a closing brace. -/
def upToLastBrace (cs : List Char) : List Char :=
  ((cs.reverse.dropWhile (fun c => c ≠ Char.ofNat 125)).drop 1).reverse

/-- Leftmost-match scan for the layout-header regex; a position where the
header matches but no closing brace follows fails and scanning resumes at
the next character, exactly as the regex engine does. -/
def findHeaderRem : Nat → List Char → Option (List Char)
  | 0, _ => none
  | _ + 1, [] => none
  | fuel + 1, c :: rest =>
    match matchHeaderAt (c :: rest) with
    | some rem =>
      if rem.contains (Char.ofNat 125) then some rem else findHeaderRem fuel rest
    | none => findHeaderRem fuel rest

/-- The capture group of `/#let\s+layout\s*\([^)]*\)\s*=\s*\{([\s\S]*)\}/`
on the whole source, or `none` when the regex does not match. -/
def extractLayoutBody (cs : List Char) : Option (List Char) :=
  (findHeaderRem cs.length cs).map upToLastBrace

/-- Parse `\s*(set|show)\s+\w+\([^)]*\)` from this position; returns the
trimmed statement text (keyword through closing parenthesis) and the
remainder.  The alternation `(set|show)` is deterministic because a
failure of `\s+` after `set` cannot be repaired by the `show` branch. -/
def parseStmtFrom (cs : List Char) : Option (String × List Char) :=
  let r0 := cs.dropWhile jsWs
  let kwRest : Option (List Char × List Char) :=
    match dropLit "set".data r0 with
    | some r1 => some ("set".data, r1)
    | none =>
      match dropLit "show".data r0 with
      | some r1 => some ("show".data, r1)
      | none => none
  match kwRest with
  | none => none
  | some (kw, r1) =>
    let w := r1.takeWhile jsWs
    if w.isEmpty then none
    else
      let r2 := r1.dropWhile jsWs
      let word := r2.takeWhile isWordChar
      if word.isEmpty then none
      else
        match r2.dropWhile isWordChar with
        | '(' :: r3 =>
          let inner := r3.takeWhile (fun c => c ≠ ')')
          match r3.dropWhile (fun c => c ≠ ')') with
          | ')' :: rem =>
            some (String.mk (kw ++ w ++ word ++ '(' :: inner ++ [')']), rem)
          | _ => none
        | _ => none

/-- The `statementRegex` exec loop (flags `gm`): a match may start at the
string start, just after a newline (the `^` with `m`), or at a newline
character (the `\n` alternative, which only matters when the previous
character is not itself a newline).  First argument is fuel (the wrapper
passes the input length). -/
def scanStmts : Nat → Bool → List Char → List String
  | 0, _, _ => []
  | _ + 1, _, [] => []
  | fuel + 1, atLineStart, c :: rest =>
    let att :=
      if atLineStart then parseStmtFrom (c :: rest)
      else if c = '\n' then parseStmtFrom rest
      else none
    match att with
    | some (stmt, rem) => stmt :: scanStmts fuel false rem
    | none => scanStmts fuel (c = '\n') rest

/-- `extractSetStatements` from src/build.js. -/
def extractSetStatements (layoutSource : String) : List String :=
  match extractLayoutBody layoutSource.data with
  | none => []
  | some body => scanStmts body.length true body

/-! ## composeDocument (src/build.js) -/

/-- A resolved layout (`{ pathArray, source, level }`). -/
structure Layout where
  pathArray : List String
  source : String
  level : Nat
deriving DecidableEq

/-- The dynamically-typed `layoutResult` argument: `null`, a single layout
object, or an array of layouts. -/
inductive LayoutResult where
  | null
  | one (l : Layout)
  | many (ls : List Layout)
deriving DecidableEq

/-- The dynamically-typed `pageBody` argument (`typeof pageBody` is
checked at the top of `composeDocument`). -/
inductive JsVal where
  | str (s : String)
  | undef
  | nullv
  | num (n : Int)
  | boolean (b : Bool)
deriving DecidableEq

/-- `generateMinimalDocument` from src/build.js (template literal
transcribed byte for byte). -/
def generateMinimalDocument (pageBody : String) : String :=
  "#set page(\n      width: 42em,\n      height: auto,\n      margin: (x: 0.25em, y: 0.25em),\n      fill: white\n    )\n\n    #set text(fill: black)\n\n    "
    ++ pageBody ++ "\n  "

/-- The `generateSingleLayoutDocument` closure of `composeDocument`,
applied to an actual layout object. -/
def generateSingleLayoutDocument (l : Layout) (pageBody : String)
    (pagePathArray : List String) : String :=
  rewriteImports l.source l.pathArray pagePathArray
    ++ "\n\n#layout[\n"
    ++ rewriteImports pageBody pagePathArray pagePathArray
    ++ "\n]"

/-- `statement.trim().match(/^set\s+(\w+)/)`: the directive kind used as
the deduplication key, or `none` for `show` statements and other
non-matching text. -/
def keyOfSet (statement : String) : Option String :=
  let t := jsTrimL statement.data
  match dropLit "set".data t with
  | none => none
  | some r1 =>
    let w := r1.takeWhile jsWs
    if w.isEmpty then none
    else
      let word := (r1.dropWhile jsWs).takeWhile isWordChar
      if word.isEmpty then none else some (String.mk word)

/-- JavaScript `Map.prototype.set` on an insertion-ordered association
list: an existing key keeps its position and gets the new value; a new key
is appended. -/
def jsMapSet (m : List (String × String)) (k v : String) : List (String × String) :=
  match m with
  | [] => [(k, v)]
  | (k2, v2) :: rest => if k2 = k then (k2, v) :: rest else (k2, v2) :: jsMapSet rest k v

/-- The keyed directive stream of the merge branch of `composeDocument`:
layouts are processed farthest to nearest (`for i = length-1 downto 0`),
each contributing its extracted statements that carry a `set` key. -/
def dirStream (layouts : List Layout) (pagePathArray : List String) :
    List (String × String) :=
  (layouts.reverse).flatMap (fun l =>
    (extractSetStatements (rewriteImports l.source l.pathArray pagePathArray)).filterMap
      (fun st => (keyOfSet st).map (fun k => (k, st))))

/-- `Array.from(setMap.values())` after the farthest-to-nearest pass. -/
def mergedSetStatements (layouts : List Layout) (pagePathArray : List String) :
    List String :=
  ((dirStream layouts pagePathArray).foldl (fun m kv => jsMapSet m kv.1 kv.2) []).map (·.2)

/-- `composeDocument` from src/build.js.  A thrown JavaScript error is
modelled as `Except.error`; the `TypeError` arises when the
`none`/`fallback` branch receives an array and dereferences
`layout.source` on it. -/
def composeDocument (layoutResult : LayoutResult) (pageBody : JsVal)
    (pagePathArray : List String) (layoutInheritance : String) : Except String String :=
  match pageBody with
  | .str body =>
    match layoutResult with
    | .null => .ok (generateMinimalDocument body)
    | .many [] => .ok (generateMinimalDocument body)
    | .one l =>
      if layoutInheritance = "none" ∨ layoutInheritance = "fallback" then
        .ok (generateSingleLayoutDocument l body pagePathArray)
      else .ok (generateMinimalDocument body)
    | .many (l0 :: restLs) =>
      if layoutInheritance = "none" ∨ layoutInheritance = "fallback" then
        .error "TypeError: Cannot read properties of undefined (reading 'replace')"
      else if layoutInheritance = "merge" then
        match restLs with
        | [] => .ok (generateSingleLayoutDocument l0 body pagePathArray)
        | l1 :: restLs2 =>
          .ok (String.intercalate "\n" (mergedSetStatements (l0 :: l1 :: restLs2) pagePathArray)
            ++ "\n\n"
            ++ rewriteImports l0.source l0.pathArray pagePathArray
            ++ "\n\n#layout[\n"
            ++ rewriteImports body pagePathArray pagePathArray
            ++ "\n]")
      else .ok (generateMinimalDocument body)
  | _ => .error "Page body must be a string"

/-! ## findLayout (src/build.js) -/

/-- Look for a layout definition in the directory `dirs` of the tree: the
`index.typ` walk plus the string/`isLayoutFile` checks of build.js. -/
def layoutProbe (tree : JsTree) (dirs : List String) (depth : Nat) : Option Layout :=
  match walkPath tree (dirs ++ ["index.typ"]) with
  | some (.leaf s) =>
    if isLayoutFile s then some ⟨dirs ++ ["index.typ"], s, depth⟩ else none
  | _ => none

/-- The upward-walk loop of `findLayout` for the `fallback` and `merge`
modes (and any other non-`none` mode string).  Returns the early fallback
result and the accumulated merge list.  First argument is fuel; the
wrapper passes `currentPath.length + 1`, enough because the loop runs once
per directory level including the root. -/
def findLayoutLoop (tree : JsTree) (mode : String) (maxMergeDepth : Nat) :
    Nat → List String → Nat → List Layout → Option Layout × List Layout
  | 0, _, _, acc => (none, acc)
  | fuel + 1, currentPath, depth, acc =>
    if mode = "merge" ∧ maxMergeDepth ≤ depth then (none, acc)
    else
      match layoutProbe tree currentPath depth with
      | some l =>
        if mode = "fallback" then (some l, acc)
        else
          if currentPath.isEmpty then (none, if mode = "merge" then acc ++ [l] else acc)
          else findLayoutLoop tree mode maxMergeDepth fuel currentPath.dropLast (depth + 1)
            (if mode = "merge" then acc ++ [l] else acc)
      | none =>
        if currentPath.isEmpty then (none, acc)
        else findLayoutLoop tree mode maxMergeDepth fuel currentPath.dropLast (depth + 1) acc

/-- `findLayout` from src/build.js. -/
def findLayout (pagePathArray : List String) (pagesTree : JsTree)
    (layoutInheritance : String) (maxMergeDepth : Nat) : LayoutResult :=
  if pagePathArray.isEmpty then
    if layoutInheritance = "merge" then .many [] else .null
  else
    match pagesTree with
    | .leaf _ => if layoutInheritance = "merge" then .many [] else .null
    | .node _ =>
      if layoutInheritance = "none" then
        match layoutProbe pagesTree pagePathArray.dropLast 0 with
        | some l => .one l
        | none => .null
      else
        let cur := pagePathArray.dropLast
        match findLayoutLoop pagesTree layoutInheritance maxMergeDepth
            (cur.length + 1) cur 0 [] with
        | (some l, _) => .one l
        | (none, layouts) =>
          if layoutInheritance = "merge" then .many layouts else .null

/-- Specification for merge-mode resolution: the layouts found at depths
`0, 1, …` (nearest first), where depth `d` inspects the ancestor
directory obtained by removing the last `d` segments of the page's
directory; only depths `d ≤ dirs.length` exist and the loop stops before
`maxMergeDepth`. -/
def mergeSpecLayouts (tree : JsTree) (dirs : List String) (maxMergeDepth : Nat) :
    List Layout :=
  (List.range (min (dirs.length + 1) maxMergeDepth)).filterMap
    (fun d => layoutProbe tree (dirs.take (dirs.length - d)) d)

/-- Specification for fallback-mode resolution: the nearest ancestor
layout over all depths `0 … dirs.length`, or `none`. -/
def fallbackSpecLayout (tree : JsTree) (dirs : List String) : Option Layout :=
  ((List.range (dirs.length + 1)).filterMap
    (fun d => layoutProbe tree (dirs.take (dirs.length - d)) d)).head?

/-! ## findAffectedPages (src/build.js) -/

/-- `a.startsWith(b)` on strings. -/
def jsStartsWith (s pre : String) : Bool := pre.data.isPrefixOf s.data

/-- JavaScript `Set.prototype.add`: insertion-ordered, no duplicates. -/
def jsSetAdd (l : List String) (x : String) : List String :=
  if x ∈ l then l else l ++ [x]

/-- State of the reverse-reachability worklist loop of
`findAffectedPages`: the `toCheck` stack, the `checked` set and the
`affectedFiles` set (both in insertion order). -/
structure AffState where
  toCheck : List String
  checked : List String
  affected : List String
deriving DecidableEq

/-- One full run of the `while (toCheck.length > 0)` loop, with fuel.
`toCheck.pop()` removes the last element; an unchecked element is marked
checked and every graph entry whose dependency set contains it is added to
`affectedFiles` and pushed onto `toCheck`, in graph iteration order. -/
def affLoop (depGraph : List (String × List String)) :
    Nat → AffState → Option AffState
  | 0, s => if s.toCheck.isEmpty then some s else none
  | fuel + 1, s =>
    if s.toCheck.isEmpty then some s
    else
      let current := (s.toCheck.getLast?).getD ""
      let toCheck2 := s.toCheck.dropLast
      if current ∈ s.checked then
        affLoop depGraph fuel { s with toCheck := toCheck2 }
      else
        let hits := (depGraph.filter (fun e => current ∈ e.2)).map (·.1)
        affLoop depGraph fuel
          { toCheck := toCheck2 ++ hits
            checked := s.checked ++ [current]
            affected := hits.foldl jsSetAdd s.affected }

/-- A fuel bound sufficient for `affLoop` to reach the empty worklist:
the measure `(K+1)·|unchecked universe| + |toCheck|` (where `K` is the
number of graph entries) strictly decreases at every step. -/
def affFuel (depGraph : List (String × List String)) : Nat :=
  (depGraph.length + 1) * (depGraph.length + 2) + 2

/-- `findAffectedPages` from src/build.js: the worklist loop, then the
changed file itself when it lies under the pages directory, then the
filter keeping only keys that resolve to page leaves in the tree (and are
not layout `index.typ` files), each paired with its content. -/
def findAffectedPages (changedFile : String) (depGraph : List (String × List String))
    (pagesTree : JsTree) (pagesRelativeToSrc : String) :
    Option (List (List String × String)) :=
  (affLoop depGraph (affFuel depGraph) ⟨[changedFile], [], []⟩).map (fun sEnd =>
    let affectedFiles :=
      if jsStartsWith changedFile (pagesRelativeToSrc ++ "/") then
        jsSetAdd sEnd.affected changedFile
      else sEnd.affected
    affectedFiles.filterMap (fun filePath =>
      if jsStartsWith filePath (pagesRelativeToSrc ++ "/") then
        let pathParts :=
          jsSplit '/' (String.mk (filePath.data.drop (pagesRelativeToSrc.data.length + 1)))
        match walkPath pagesTree pathParts with
        | some (.leaf content) =>
          if ((pathParts.getLast?).getD "") = "index.typ" ∧ isLayoutFile content then
            none
          else some (pathParts, content)
        | _ => none
      else none))

/-! ## Specification-side definitions used in the theorem statements -/

/-- Keys of an association list. -/
def keysOf (m : List (String × String)) : List String := m.map (·.1)

/-- The keys of a keyed stream in first-seen order. -/
def firstOccKeys : List (String × String) → List String
  | [] => []
  | (k, _) :: s => k :: (firstOccKeys s).filter (fun k2 => k2 ≠ k)

/-- The value attached to the last occurrence of a key in a stream (in
the farthest-to-nearest pass this is the nearest contributor, since a
later entry replaces an earlier one of the same kind). -/
def lastValFor (k : String) (s : List (String × String)) : Option String :=
  ((s.filter (fun kv => kv.1 = k)).getLast?).map (·.2)

/-- Declarative description of the merged style directives: kinds in
first-seen order of the farthest-to-nearest pass, each carrying the value
of its last (nearest) contributor. -/
def specMergedDirectives (s : List (String × String)) : List String :=
  (firstOccKeys s).map (fun k => (lastValFor k s).getD "")

/-- First-match association-list lookup (`Map.prototype.get`). -/
def lookupVal (k : String) (m : List (String × String)) : Option String :=
  (m.find? (fun kv => kv.1 = k)).map (·.2)

/-- Declarative description of `isLayoutFile`: some line that is not a
fence line, sits outside any fenced code block (even number of fence
lines before it), is not a line comment, and matches the
layout-definition pattern. -/
def layoutLineWitness (lines : List String) : Prop :=
  ∃ pre line post, lines = pre ++ line :: post ∧
    lineIsFence line = false ∧ fenceParity pre = false ∧
    lineIsComment line = false ∧ lineHasLayoutDecl line = true

/-- "file `a` depends on file `b`" in a dependency graph. -/
def dependsOn (depGraph : List (String × List String)) (a b : String) : Prop :=
  ∃ deps, (a, deps) ∈ depGraph ∧ b ∈ deps

/-- Worklist invariant of the affected-pages loop: every dependent of an
already-checked file has been recorded as affected and is itself checked
or still queued. -/
def affInv (depGraph : List (String × List String)) (s : AffState) : Prop :=
  ∀ c ∈ s.checked, ∀ e ∈ depGraph, c ∈ e.2 →
    e.1 ∈ s.affected ∧ (e.1 ∈ s.checked ∨ e.1 ∈ s.toCheck)

/-! ## Concrete fixtures for counterexamples and witnesses -/

/-- A small genuine layout definition. -/
def exLayoutSource : String :=
  "#let layout(body) = \x7b\n  set text(fill: black)\n  body\n\x7d"

/-- A second layout definition with two style directives. -/
def exLayoutSource2 : String :=
  "#let layout(body) = \x7b\n  set text(fill: red)\n  set par(justify: true)\n  body\n\x7d"

/-- A document whose only layout-looking line sits inside a fenced code
block. -/
def exFencedDoc : String :=
  "= Docs\n\x60\x60\x60\n#let layout(body) = \x7b body \x7d\n\x60\x60\x60\nEnd"

/-- A document whose only layout-looking line is a line comment. -/
def exCommentDoc : String :=
  "= Docs\n// #let layout(body) = \x7b body \x7d\nEnd"

/-- A concrete layout object. -/
def cLayout : Layout := ⟨["index.typ"], exLayoutSource, 0⟩

/-- Tree for the merge-depth counterexample: a layout at the pages root,
a page one directory below it. -/
def c2Tree : JsTree :=
  .node [("index.typ", .leaf exLayoutSource),
         ("a", .node [("p.typ", .leaf "= Page")])]

/-- Tree for the `none` / `fallback` example: page under `a/b/`, no
layout at `a/b/`, a layout at `a/`. -/
def c6Tree : JsTree :=
  .node [("a", .node [("index.typ", .leaf exLayoutSource),
                      ("b", .node [("p.typ", .leaf "= Page")])])]

/-- Dependency graph with the cycle X→Y→X. -/
def cycleGraph : List (String × List String) :=
  [("pages/x.typ", ["pages/y.typ"]), ("pages/y.typ", ["pages/x.typ"])]

/-- Pages tree containing the two pages of the cycle example. -/
def cycleTree : JsTree :=
  .node [("x.typ", .leaf "= X"), ("y.typ", .leaf "= Y")]

/-- Dependency graph with the chain X→Y→Z. -/
def chainGraph : List (String × List String) :=
  [("pages/x.typ", ["pages/y.typ"]),
   ("pages/y.typ", ["pages/z.typ"]),
   ("pages/z.typ", [])]

/-! ## pathToRoute over arbitrary JavaScript values

`pathToRoute` receives its argument from JavaScript, so array elements
may be arbitrary values.  `filename === "index.typ"` is strict equality
(false for every non-string), and the else branch then calls
`path.extname(filename)`, which Node validates with `validateString`:
a non-string last element throws `TypeError [ERR_INVALID_ARG_TYPE]`.
Elements in other positions only ever reach `Array.prototype.join`,
which stringifies them. -/

/-- `Array.prototype.join` element conversion: `null`/`undefined` become
the empty string, other values their `String(...)` form. -/
def jsValToJoinString : JsVal → String
  | .str s => s
  | .undef => ""
  | .nullv => ""
  | .num n => toString n
  | .boolean b => if b then "true" else "false"

/-- The dynamically-typed argument of `pathToRoute`: a non-array value,
or an array of arbitrary JavaScript values. -/
inductive PathArgV where
  | notArray
  | arr (vals : List JsVal)

/-- `pathToRoute` from src/pipeline.js over its true dynamic domain.  A
thrown `TypeError` is modelled as `Except.error`.  The JavaScript guard
`!Array.isArray(filePath) || filePath.length === 0` and the subsequent
`filePath[filePath.length - 1]` access are modelled together by matching
on `vals.getLast?` (which is `none` exactly for the empty array). -/
def pathToRouteVal : PathArgV → Except String String
  | .notArray => .ok "/"
  | .arr vals =>
    match vals.getLast? with
    | none => .ok "/"
    | some (.str filename) =>
      if filename = "index.typ" then
        let parentPath := vals.dropLast
        if parentPath.isEmpty then .ok "/"
        else .ok ("/" ++ String.intercalate "/" (parentPath.map jsValToJoinString) ++ "/")
      else
        let stem := jsBasename filename (jsExtname filename)
        let dirPath := vals.dropLast
        if dirPath.isEmpty then .ok ("/" ++ stem ++ "/")
        else .ok ("/" ++ String.intercalate "/" (dirPath.map jsValToJoinString)
          ++ "/" ++ stem ++ "/")
    | some _ =>
      .error "TypeError [ERR_INVALID_ARG_TYPE]: The \"path\" argument must be of type string"

/-! # Theorems -/

theorem string_data_append (a b : String) : (a ++ b).data = a.data ++ b.data := rfl

theorem beginsWithSlash_append (s : String) :
    beginsWithSlash ("/" ++ s) = true := by
  simp [beginsWithSlash, string_data_append]

theorem endsWithSlash_append (s : String) :
    endsWithSlash (s ++ "/") = true := by
  have h : (s ++ "/").data = s.data ++ ['/'] := rfl
  simp [endsWithSlash, h]

/-- C8: `pathToRoute(["index.typ"])` is `/`, `pathToRoute(["blog","post.typ"])`
is `/blog/post/`, and `routeToBuildPath("/blog/post/")` yields directory
`blog/post` with artifact `blog/post/index.pdf` and HTML wrapper
`blog/post/index.html`. -/
theorem pathToRoute_routeToBuildPath_examples :
    pathToRoute ["index.typ"] = "/" ∧
    pathToRoute ["blog", "post.typ"] = "/blog/post/" ∧
    routeToBuildPath "/blog/post/" =
      { dir := "blog/post", pdfPath := "blog/post/index.pdf",
        htmlPath := "blog/post/index.html" } := by
  refine ⟨by decide, by decide, by decide⟩

theorem routeToBuildPath_fields (route : String) :
    (routeToBuildPath route).dir = stripSlashesBoth route ∧
    ((routeToBuildPath route).dir = "" →
      (routeToBuildPath route).pdfPath = "index.pdf" ∧
      (routeToBuildPath route).htmlPath = "index.html") ∧
    ((routeToBuildPath route).dir ≠ "" →
      (routeToBuildPath route).pdfPath = (routeToBuildPath route).dir ++ "/index.pdf" ∧
      (routeToBuildPath route).htmlPath = (routeToBuildPath route).dir ++ "/index.html") := by
  rw [routeToBuildPath]
  by_cases h : stripSlashesBoth route = ""
  · simp [h]
  · simp [h]

/-- C7: for every path array `P`, the build paths obtained from
`routeToBuildPath (pathToRoute P)` are internally consistent with the
route: the directory is the route with its leading and trailing slashes
stripped, the artifact path is `dir ++ "/index.pdf"` and the HTML path is
`dir ++ "/index.html"`, while the root route `/` collapses to the empty
directory with bare `index.pdf` / `index.html`. -/
theorem routeToBuildPath_pathToRoute_consistent (P : List String) :
    (routeToBuildPath (pathToRoute P)).dir = stripSlashesBoth (pathToRoute P) ∧
    ((routeToBuildPath (pathToRoute P)).dir = "" →
      (routeToBuildPath (pathToRoute P)).pdfPath = "index.pdf" ∧
      (routeToBuildPath (pathToRoute P)).htmlPath = "index.html") ∧
    ((routeToBuildPath (pathToRoute P)).dir ≠ "" →
      (routeToBuildPath (pathToRoute P)).pdfPath =
        (routeToBuildPath (pathToRoute P)).dir ++ "/index.pdf" ∧
      (routeToBuildPath (pathToRoute P)).htmlPath =
        (routeToBuildPath (pathToRoute P)).dir ++ "/index.html") ∧
    (pathToRoute P = "/" → (routeToBuildPath (pathToRoute P)).dir = "") := by
  obtain ⟨h1, h2, h3⟩ := routeToBuildPath_fields (pathToRoute P)
  refine ⟨h1, h2, h3, ?_⟩
  intro hr
  rw [hr] at h1 ⊢
  rw [h1]
  decide

theorem exists_split_cons (l : String) (rest : List String)
    (P : List String → String → Prop) :
    (∃ pre line post, l :: rest = pre ++ line :: post ∧ P pre line) ↔
      P [] l ∨ (∃ pre line post, rest = pre ++ line :: post ∧ P (l :: pre) line) := by
  constructor
  · rintro ⟨pre, line, post, heq, hp⟩
    cases pre with
    | nil =>
      simp only [List.nil_append, List.cons.injEq] at heq
      exact Or.inl (heq.1 ▸ hp)
    | cons p pre2 =>
      simp only [List.cons_append, List.cons.injEq] at heq
      refine Or.inr ⟨pre2, line, post, heq.2, ?_⟩
      rw [heq.1]
      exact hp
  · rintro (h | ⟨pre, line, post, heq, hp⟩)
    · exact ⟨[], l, rest, rfl, h⟩
    · exact ⟨l :: pre, line, post, by simp [heq], hp⟩

theorem isLayoutFileGo_spec (lines : List String) :
    ∀ b, isLayoutFileGo lines b = true ↔
      ∃ pre line post, lines = pre ++ line :: post ∧
        (lineIsFence line = false ∧
         pre.foldl (fun acc l2 => if lineIsFence l2 then !acc else acc) b = false ∧
         lineIsComment line = false ∧ lineHasLayoutDecl line = true) := by
  induction lines with
  | nil =>
    intro b
    simp [isLayoutFileGo]
  | cons l rest ih =>
    intro b
    rw [isLayoutFileGo,
      exists_split_cons l rest (fun pre line =>
        lineIsFence line = false ∧
        pre.foldl (fun acc l2 => if lineIsFence l2 then !acc else acc) b = false ∧
        lineIsComment line = false ∧ lineHasLayoutDecl line = true)]
    by_cases hf : lineIsFence l
    · rw [if_pos hf, ih (!b)]
      simp [hf]
    · rw [if_neg (by simp [hf])]
      by_cases hb : b = true
      · subst hb
        rw [if_pos rfl, ih true]
        simp [hf]
      · have hb2 : b = false := by
          cases b
          · rfl
          · exact absurd rfl hb
        subst hb2
        rw [if_neg (by simp)]
        by_cases hc : lineIsComment l
        · rw [if_pos hc, ih false]
          simp [hf, hc]
        · rw [if_neg hc]
          by_cases hd : lineHasLayoutDecl l
          · rw [if_pos hd]
            simp [hf, hc, hd]
          · rw [if_neg hd, ih false]
            simp [hf, hc, hd]

/-- C5: `isLayoutFile` returns `true` iff some line outside a fenced code
block (and not itself a fence line) that is not a line comment matches
the layout-definition pattern; a document whose only layout-looking lines
sit inside code fences or behind a line-comment marker is never
classified as a layout, while a genuine layout source is. -/
theorem isLayoutFile_iff_spec :
    (∀ s : String, isLayoutFile s = true ↔ layoutLineWitness (jsSplit '\n' s)) ∧
    isLayoutFile exFencedDoc = false ∧
    isLayoutFile exCommentDoc = false ∧
    isLayoutFile exLayoutSource = true := by
  refine ⟨?_, by decide, by decide, by decide⟩
  intro s
  rw [isLayoutFile]
  exact isLayoutFileGo_spec (jsSplit '\n' s) false

theorem dropLit_eq (p : List Char) :
    ∀ cs r, dropLit p cs = some r → cs = p ++ r := by
  induction p with
  | nil =>
    intro cs r h
    simp only [dropLit, Option.some.injEq] at h
    simp [h]
  | cons a ps ih =>
    intro cs r h
    cases cs with
    | nil => simp [dropLit] at h
    | cons c cs2 =>
      simp only [dropLit] at h
      by_cases hac : a = c
      · rw [if_pos hac] at h
        rw [List.cons_append, ← hac, ih cs2 r h]
      · rw [if_neg hac] at h
        exact absurd h (by simp)

theorem matchImportAt_sound (cs ws pcs rem : List Char)
    (h : matchImportAt cs = some (ws, pcs, rem)) :
    cs = "#import".data ++ ws ++ '"' :: (pcs ++ '"' :: rem) := by
  unfold matchImportAt at h
  rcases hd : dropLit "#import".data cs with _ | r1 <;> rw [hd] at h
  · exact absurd h (by simp)
  · dsimp only at h
    by_cases he : (r1.takeWhile jsWs).isEmpty
    · rw [if_pos he] at h
      exact absurd h (by simp)
    · rw [if_neg he] at h
      rcases hq1 : dropLit ['"'] (r1.dropWhile jsWs) with _ | r3 <;> rw [hq1] at h
      · exact absurd h (by simp)
      · dsimp only at h
        by_cases hpe : (r3.takeWhile (fun c => c ≠ '"')).isEmpty
        · rw [if_pos hpe] at h
          exact absurd h (by simp)
        · rw [if_neg hpe] at h
          rcases hq2 : dropLit ['"'] (r3.dropWhile (fun c => c ≠ '"')) with _ | rem2 <;>
            rw [hq2] at h
          · exact absurd h (by simp)
          · dsimp only at h
            simp only [Option.some.injEq, Prod.mk.injEq] at h
            obtain ⟨hws, hpcs, hrem⟩ := h
            have e1 : cs = "#import".data ++ r1 := dropLit_eq _ _ _ hd
            have e2 : r1.dropWhile jsWs = '"' :: r3 := dropLit_eq _ _ _ hq1
            have e3 : r3.dropWhile (fun c => c ≠ '"') = '"' :: rem2 :=
              dropLit_eq _ _ _ hq2
            have e4 : r3 = pcs ++ '"' :: rem := by
              conv_lhs => rw [← List.takeWhile_append_dropWhile
                (p := fun c => c ≠ '"') (l := r3)]
              rw [hpcs, e3, hrem]
            have e5 : r1 = ws ++ '"' :: (pcs ++ '"' :: rem) := by
              conv_lhs => rw [← List.takeWhile_append_dropWhile (p := jsWs) (l := r1)]
              rw [hws, e2, e4]
            rw [e1, e5, List.append_assoc]

theorem matchImportAt_shrinks (cs ws pcs rem : List Char)
    (h : matchImportAt cs = some (ws, pcs, rem)) : rem.length < cs.length := by
  have e := matchImportAt_sound cs ws pcs rem h
  rw [e]
  simp [List.length_append]
  omega

theorem noRelativeImports_rewriteScan_id (fromDir toDir : List String) :
    ∀ fuel cs, noRelativeImports fuel cs = true →
      rewriteScan fromDir toDir fuel cs = cs := by
  intro fuel
  induction fuel with
  | zero =>
    intro cs _
    rfl
  | succ n ih =>
    intro cs hno
    cases cs with
    | nil => rfl
    | cons c rest =>
      rcases hm : matchImportAt (c :: rest) with _ | ⟨ws, pcs, rem⟩
      · simp only [noRelativeImports, hm] at hno
        simp only [rewriteScan, hm]
        rw [ih rest hno]
      · simp only [noRelativeImports, hm, Bool.and_eq_true, decide_eq_true_eq] at hno
        obtain ⟨hdot, hrest⟩ := hno
        simp only [rewriteScan, hm]
        rw [if_neg hdot]
        rw [ih rem hrest]
        have e := matchImportAt_sound _ _ _ _ hm
        rw [e]
        simp

/-- C4 counterexample: a relative reference that climbs above the common
root (`../../x.typ` from a file at the pages root) is *not* passed
through unchanged — the excess parent markers are discarded and the
reference is rewritten to `x.typ`. -/
theorem rewriteImports_climb_not_passthrough :
    rewriteImports "#import \"../../x.typ\"" ["p.typ"] ["p.typ"] =
      "#import \"x.typ\"" ∧
    rewriteImports "#import \"../../x.typ\"" ["p.typ"] ["p.typ"] ≠
      "#import \"../../x.typ\"" := by
  refine ⟨by decide, by decide⟩

/-- C4 (amended): the import rewriter rewrites only relative reference
directives (those whose captured path begins with `.`); a source text all
of whose import directives are non-relative is passed through byte for
byte, for any pair of locations.  A relative reference that climbs above
the common root is *not* passed through: the parent markers are clamped
at the root and the reference is rewritten (shown here at the concrete
climbing input). -/
theorem rewriteImports_passthrough_and_clamp (source : String)
    (fromPathArray toPathArray : List String)
    (h : noRelativeImports source.data.length source.data = true) :
    rewriteImports source fromPathArray toPathArray = source ∧
    rewriteImports "#import \"../../x.typ\"" ["p.typ"] ["p.typ"] =
      "#import \"x.typ\"" := by
  constructor
  · rw [rewriteImports]
    rw [noRelativeImports_rewriteScan_id _ _ _ _ h]
  · decide

/-- Witness for C4 at a package-style (non-relative) import source. -/
theorem rewriteImports_passthrough_witness :
    noRelativeImports ("#import \"@preview/pkg:0.1.0\": link").data.length
        ("#import \"@preview/pkg:0.1.0\": link").data = true ∧
    rewriteImports "#import \"@preview/pkg:0.1.0\": link" ["blog", "p.typ"] ["q.typ"] =
      "#import \"@preview/pkg:0.1.0\": link" :=
  ⟨by decide,
   (rewriteImports_passthrough_and_clamp "#import \"@preview/pkg:0.1.0\": link"
     ["blog", "p.typ"] ["q.typ"] (by decide)).1⟩

/-- C9 counterexample: with a textual (string) page body but a non-empty
*array* layout result handed to the `fallback` branch, `composeDocument`
still throws (`layout.source` on an array is `undefined` and
`undefined.replace` raises a `TypeError`), so "throws iff the body is not
a string" fails as universally stated. -/
theorem composeDocument_string_body_can_throw :
    ¬ ∃ d, composeDocument (.many [cLayout]) (.str "hello") ["p.typ"] "fallback" =
      Except.ok d := by
  rintro ⟨d, hd⟩
  simp [composeDocument] at hd

/-- C9 (amended): for every layout result of a shape that layout
resolution can actually produce for the given mode (in `none`/`fallback`
the resolver never returns a non-empty array), `composeDocument` succeeds
exactly when the page body is textual: every string body yields a
document and every non-string body is rejected with an error, never
silently coerced. -/
theorem composeDocument_error_iff (lr : LayoutResult) (body : JsVal)
    (pp : List String) (mode : String)
    (h : (mode = "none" ∨ mode = "fallback") → ∀ x xs, lr ≠ .many (x :: xs)) :
    (∃ d, composeDocument lr body pp mode = Except.ok d) ↔ ∃ s, body = JsVal.str s := by
  cases body with
  | str s =>
    have hs : ∃ s2, JsVal.str s = JsVal.str s2 := ⟨s, rfl⟩
    simp only [iff_true_intro hs, iff_true]
    cases lr with
    | null => exact ⟨_, rfl⟩
    | one l =>
      by_cases hm : mode = "none" ∨ mode = "fallback"
      · simp only [composeDocument, if_pos hm]
        exact ⟨_, rfl⟩
      · simp only [composeDocument, if_neg hm]
        exact ⟨_, rfl⟩
    | many ls =>
      cases ls with
      | nil => exact ⟨_, rfl⟩
      | cons x xs =>
        by_cases hm : mode = "none" ∨ mode = "fallback"
        · exact absurd rfl (h hm x xs)
        · by_cases hm2 : mode = "merge"
          · cases xs with
            | nil =>
              simp only [composeDocument, if_neg hm, if_pos hm2]
              exact ⟨_, rfl⟩
            | cons y ys =>
              simp only [composeDocument, if_neg hm, if_pos hm2]
              exact ⟨_, rfl⟩
          · simp only [composeDocument, if_neg hm, if_neg hm2]
            exact ⟨_, rfl⟩
  | undef => simp [composeDocument]
  | nullv => simp [composeDocument]
  | num n => simp [composeDocument]
  | boolean b => simp [composeDocument]

/-- Witness for C9 at a shape-consistent concrete input. -/
theorem composeDocument_error_iff_witness :
    ((("fallback" = "none" ∨ "fallback" = "fallback") →
        ∀ x xs, LayoutResult.null ≠ .many (x :: xs)) ∧
     ((∃ d, composeDocument .null (.str "hello") ["p.typ"] "fallback" = Except.ok d) ↔
        ∃ s, JsVal.str "hello" = JsVal.str s)) :=
  ⟨fun _ x xs => by simp,
   composeDocument_error_iff .null (.str "hello") ["p.typ"] "fallback"
     (fun _ x xs => by simp)⟩

theorem take_dropLast {α : Type} (l : List α) (k : Nat) :
    (l.take k).dropLast = l.take (min k l.length - 1) := by
  rw [List.dropLast_eq_take, List.length_take, List.take_take]
  congr 1
  omega

theorem take_isEmpty_false {α : Type} (l : List α) (k : Nat)
    (h1 : 0 < k) (h2 : k ≤ l.length) : (l.take k).isEmpty = false := by
  cases hl : l.take k with
  | nil =>
    exfalso
    have hlen := congrArg List.length hl
    rw [List.length_take] at hlen
    simp only [List.length_nil] at hlen
    omega
  | cons a t => rfl

theorem findLayoutLoop_merge_spec (tree : JsTree) (maxD : Nat) (dirs : List String) :
    ∀ fuel d acc, d ≤ dirs.length → dirs.length - d < fuel →
      findLayoutLoop tree "merge" maxD fuel (dirs.take (dirs.length - d)) d acc =
        (none, acc ++ (List.range' d (min (dirs.length + 1) maxD - d)).filterMap
          (fun e => layoutProbe tree (dirs.take (dirs.length - e)) e)) := by
  intro fuel
  induction fuel with
  | zero =>
    intro d acc hd hf
    omega
  | succ n ih =>
    intro d acc hd hf
    rw [findLayoutLoop]
    by_cases hmd : maxD ≤ d
    · rw [if_pos ⟨rfl, hmd⟩]
      have hz : min (dirs.length + 1) maxD - d = 0 := by omega
      rw [hz]
      simp [List.range']
    · rw [if_neg (fun hand => hmd hand.2)]
      have hcnt : min (dirs.length + 1) maxD - d =
          (min (dirs.length + 1) maxD - (d + 1)) + 1 := by omega
      rw [hcnt, List.range'_succ]
      rcases hp : layoutProbe tree (dirs.take (dirs.length - d)) d with _ | l
      all_goals dsimp only
      · by_cases hdl : d = dirs.length
        · have hE : (dirs.take (dirs.length - d)).isEmpty = true := by
            rw [hdl, Nat.sub_self]
            rfl
          have hz2 : min (dirs.length + 1) maxD - (d + 1) = 0 := by omega
          rw [if_pos hE, hz2]
          simp [List.filterMap_cons, hp]
        · have hE : (dirs.take (dirs.length - d)).isEmpty = false :=
            take_isEmpty_false dirs (dirs.length - d) (by omega) (by omega)
          rw [if_neg (by simp [hE])]
          rw [take_dropLast]
          have he : min (dirs.length - d) dirs.length - 1 = dirs.length - (d + 1) := by
            omega
          rw [he, ih (d + 1) acc (by omega) (by omega)]
          simp [List.filterMap_cons, hp]
      · rw [if_neg (show ¬("merge" : String) = "fallback" by decide)]
        have hacc : (if ("merge" : String) = "merge" then acc ++ [l] else acc) = acc ++ [l] :=
          if_pos rfl
        rw [hacc]
        by_cases hdl : d = dirs.length
        · have hE : (dirs.take (dirs.length - d)).isEmpty = true := by
            rw [hdl, Nat.sub_self]
            rfl
          have hz2 : min (dirs.length + 1) maxD - (d + 1) = 0 := by omega
          rw [if_pos hE, hz2]
          simp [List.filterMap_cons, hp]
        · have hE : (dirs.take (dirs.length - d)).isEmpty = false :=
            take_isEmpty_false dirs (dirs.length - d) (by omega) (by omega)
          rw [if_neg (by simp [hE])]
          rw [take_dropLast]
          have he : min (dirs.length - d) dirs.length - 1 = dirs.length - (d + 1) := by
            omega
          rw [he, ih (d + 1) (acc ++ [l]) (by omega) (by omega)]
          simp [List.filterMap_cons, hp]

theorem findLayoutLoop_fallback_spec (tree : JsTree) (maxD : Nat) (dirs : List String) :
    ∀ fuel d acc, d ≤ dirs.length → dirs.length - d < fuel →
      findLayoutLoop tree "fallback" maxD fuel (dirs.take (dirs.length - d)) d acc =
        (((List.range' d (dirs.length + 1 - d)).filterMap
            (fun e => layoutProbe tree (dirs.take (dirs.length - e)) e)).head?, acc) := by
  intro fuel
  induction fuel with
  | zero =>
    intro d acc hd hf
    omega
  | succ n ih =>
    intro d acc hd hf
    rw [findLayoutLoop]
    rw [if_neg (fun hand => by exact absurd hand.1 (by decide))]
    have hcnt : dirs.length + 1 - d = (dirs.length + 1 - (d + 1)) + 1 := by omega
    rw [hcnt, List.range'_succ]
    rcases hp : layoutProbe tree (dirs.take (dirs.length - d)) d with _ | l
    all_goals dsimp only
    · by_cases hdl : d = dirs.length
      · have hE : (dirs.take (dirs.length - d)).isEmpty = true := by
          rw [hdl, Nat.sub_self]
          rfl
        have hz2 : dirs.length + 1 - (d + 1) = 0 := by omega
        rw [if_pos hE, hz2]
        simp [List.filterMap_cons, hp, List.range']
      · have hE : (dirs.take (dirs.length - d)).isEmpty = false :=
          take_isEmpty_false dirs (dirs.length - d) (by omega) (by omega)
        rw [if_neg (by simp [hE])]
        rw [take_dropLast]
        have he : min (dirs.length - d) dirs.length - 1 = dirs.length - (d + 1) := by
          omega
        rw [he, ih (d + 1) acc (by omega) (by omega)]
        simp [List.filterMap_cons, hp]
    · rw [if_pos rfl]
      simp [List.filterMap_cons, hp]

/-- C2 counterexample: with `maxMergeDepth = 1`, a page at `a/p.typ` and
an ancestor layout at depth exactly 1 (the pages root), merge-mode
resolution returns the empty list — the layout at depth equal to
`maxDepth` is *not* collected, contradicting the "inclusive" claim. -/
theorem findLayout_merge_maxDepth_exclusive_cex :
    findLayout ["a", "p.typ"] c2Tree "merge" 1 = .many [] ∧
    layoutProbe c2Tree [] 1 = some ⟨["index.typ"], exLayoutSource, 1⟩ := by
  refine ⟨by decide, by decide⟩

/-- C2 (amended): merge-mode resolution collects every ancestor layout
found walking upward from the page's directory at depths *strictly below*
`maxDepth` (a layout at depth equal to `maxDepth` is not collected),
returned nearest-first (depth 0 upward), the empty list when none is
found; the walk never probes any depth `≥ maxDepth` and never probes
beyond the root. -/
theorem findLayout_merge_spec (children : List (String × JsTree))
    (pagePathArray : List String) (maxD : Nat) (h : pagePathArray ≠ []) :
    findLayout pagePathArray (.node children) "merge" maxD =
      .many (mergeSpecLayouts (.node children) pagePathArray.dropLast maxD) ∧
    ∀ l ∈ mergeSpecLayouts (.node children) pagePathArray.dropLast maxD,
      l.level < maxD ∧ l.level ≤ pagePathArray.dropLast.length ∧
      layoutProbe (.node children)
        (pagePathArray.dropLast.take (pagePathArray.dropLast.length - l.level)) l.level =
          some l := by
  constructor
  · rw [findLayout]
    rw [if_neg (by simpa using h)]
    have hloop := findLayoutLoop_merge_spec (.node children) maxD
      pagePathArray.dropLast (pagePathArray.dropLast.length + 1) 0 [] (by omega) (by omega)
    simp only [Nat.sub_zero] at hloop
    rw [List.take_length] at hloop
    rw [if_neg (by decide)]
    dsimp only
    rw [hloop]
    rw [mergeSpecLayouts, List.range_eq_range']
    simp
  · intro l hl
    rw [mergeSpecLayouts] at hl
    rw [List.mem_filterMap] at hl
    obtain ⟨d, hd, hpd⟩ := hl
    rw [List.mem_range] at hd
    have hlev : l.level = d := by
      rw [layoutProbe] at hpd
      rcases hw : walkPath (.node children)
          (pagePathArray.dropLast.take (pagePathArray.dropLast.length - d) ++
            ["index.typ"]) with _ | t
      · rw [hw] at hpd
        simp at hpd
      · rw [hw] at hpd
        cases t with
        | leaf s =>
          by_cases hil : isLayoutFile s
          · simp only [hil, if_true] at hpd
            cases hpd
            rfl
          · simp [hil] at hpd
        | node cs2 => simp at hpd
    rw [hlev]
    exact ⟨by omega, by omega, hpd⟩

/-- Witness for C2's amended theorem at the concrete counterexample
setting (page `a/p.typ`, layout at the pages root, `maxDepth = 1`). -/
theorem findLayout_merge_spec_witness :
    ((["a", "p.typ"] : List String) ≠ []) ∧
    (findLayout ["a", "p.typ"]
        (.node [("index.typ", .leaf exLayoutSource),
                ("a", .node [("p.typ", .leaf "= Page")])]) "merge" 1 =
      .many (mergeSpecLayouts
        (.node [("index.typ", .leaf exLayoutSource),
                ("a", .node [("p.typ", .leaf "= Page")])])
        (["a", "p.typ"] : List String).dropLast 1)) :=
  ⟨by decide,
   (findLayout_merge_spec [("index.typ", .leaf exLayoutSource),
      ("a", .node [("p.typ", .leaf "= Page")])] ["a", "p.typ"] 1 (by decide)).1⟩

/-- C6: in mode `none`, layout resolution inspects only the page's own
directory (its result is exactly the probe of that directory, never an
ancestor), so the `a/b/` page with a layout only at `a/` resolves to
`null`; in mode `fallback`, resolution walks upward and returns the
nearest ancestor layout (the head of the probes at depths `0..root`),
`null` exactly when no ancestor up to the root has one — the same `a/b/`
setup resolves to the layout at `a/`. -/
theorem findLayout_none_fallback_spec (children : List (String × JsTree))
    (pagePathArray : List String) (maxD : Nat) (h : pagePathArray ≠ []) :
    (findLayout pagePathArray (.node children) "none" maxD =
      match layoutProbe (.node children) pagePathArray.dropLast 0 with
      | some l => .one l
      | none => .null) ∧
    (findLayout pagePathArray (.node children) "fallback" maxD =
      match fallbackSpecLayout (.node children) pagePathArray.dropLast with
      | some l => .one l
      | none => .null) ∧
    findLayout ["a", "b", "p.typ"] c6Tree "none" 5 = .null ∧
    findLayout ["a", "b", "p.typ"] c6Tree "fallback" 5 =
      .one ⟨["a", "index.typ"], exLayoutSource, 1⟩ := by
  refine ⟨?_, ?_, by decide, by decide⟩
  · rw [findLayout]
    rw [if_neg (by simpa using h)]
    rw [if_pos rfl]
  · rw [findLayout]
    rw [if_neg (by simpa using h)]
    rw [if_neg (by decide)]
    have hloop := findLayoutLoop_fallback_spec (.node children) maxD
      pagePathArray.dropLast (pagePathArray.dropLast.length + 1) 0 [] (by omega) (by omega)
    simp only [Nat.sub_zero] at hloop
    rw [List.take_length] at hloop
    dsimp only
    rw [hloop]
    rw [fallbackSpecLayout, List.range_eq_range']
    rcases ((List.range' 0 (pagePathArray.dropLast.length + 1)).filterMap
        (fun e => layoutProbe (.node children)
          (pagePathArray.dropLast.take (pagePathArray.dropLast.length - e)) e)).head? with
      _ | l
    · rfl
    · rfl

/-- Witness for C6 at the concrete `a/b/` example. -/
theorem findLayout_none_fallback_spec_witness :
    ((["a", "b", "p.typ"] : List String) ≠ []) ∧
    (findLayout ["a", "b", "p.typ"] c6Tree "none" 5 =
      match layoutProbe c6Tree (["a", "b", "p.typ"] : List String).dropLast 0 with
      | some l => .one l
      | none => .null) :=
  ⟨by decide,
   (findLayout_none_fallback_spec _ ["a", "b", "p.typ"] 5 (by decide)).1⟩

/-- Witness for C7 at `P = ["blog", "post.typ"]`, discharging the
non-empty-directory hypothesis. -/
theorem routeToBuildPath_pathToRoute_consistent_witness :
    (routeToBuildPath (pathToRoute ["blog", "post.typ"])).dir ≠ "" ∧
    (routeToBuildPath (pathToRoute ["blog", "post.typ"])).pdfPath =
      (routeToBuildPath (pathToRoute ["blog", "post.typ"])).dir ++ "/index.pdf" ∧
    (routeToBuildPath (pathToRoute ["blog", "post.typ"])).htmlPath =
      (routeToBuildPath (pathToRoute ["blog", "post.typ"])).dir ++ "/index.html" :=
  ⟨by decide,
   (routeToBuildPath_pathToRoute_consistent ["blog", "post.typ"]).2.2.1 (by decide)⟩

theorem jsMapSet_keys (k v : String) :
    ∀ m, keysOf (jsMapSet m k v) =
      if k ∈ keysOf m then keysOf m else keysOf m ++ [k] := by
  intro m
  induction m with
  | nil => simp [jsMapSet, keysOf]
  | cons kv2 t ih =>
    obtain ⟨k2, v2⟩ := kv2
    rw [jsMapSet]
    by_cases hk : k2 = k
    · subst hk
      rw [if_pos rfl]
      simp [keysOf]
    · rw [if_neg hk]
      simp only [keysOf, List.map_cons] at ih ⊢
      rw [ih]
      by_cases hin : k ∈ List.map (fun x => x.1) t
      · rw [if_pos hin, if_pos (by simp [hin])]
      · rw [if_neg hin, if_neg (by
          simp only [List.mem_cons]
          rintro (h1 | h2)
          · exact hk h1.symm
          · exact hin h2)]
        simp

theorem lookupVal_cons (k2 k v : String) (t : List (String × String)) :
    lookupVal k2 ((k, v) :: t) = if k = k2 then some v else lookupVal k2 t := by
  rw [lookupVal]
  by_cases h : k = k2
  · rw [List.find?_cons_of_pos _ (by simp [h]), if_pos h]
    rfl
  · rw [List.find?_cons_of_neg _ (by simp [h]), if_neg h]
    rfl

theorem lookupVal_jsMapSet (k v k2 : String) :
    ∀ m, lookupVal k2 (jsMapSet m k v) =
      if k2 = k then some v else lookupVal k2 m := by
  intro m
  induction m with
  | nil =>
    rw [jsMapSet, lookupVal_cons]
    by_cases h : k2 = k
    · rw [if_pos h.symm, if_pos h]
    · rw [if_neg (fun e => h e.symm), if_neg h]
  | cons kv3 t ih =>
    obtain ⟨k3, v3⟩ := kv3
    rw [jsMapSet]
    by_cases h3 : k3 = k
    · rw [if_pos h3, lookupVal_cons, lookupVal_cons]
      by_cases h : k3 = k2
      · rw [if_pos h, if_pos (h.symm.trans h3)]
      · rw [if_neg h]
        have hne : ¬ k2 = k := fun e => h (h3.trans e.symm)
        rw [if_neg hne, if_neg h]
    · rw [if_neg h3, lookupVal_cons, lookupVal_cons]
      by_cases h : k3 = k2
      · have hne : ¬ k2 = k := fun e => h3 (h.trans e)
        rw [if_pos h, if_neg hne, if_pos h]
      · rw [if_neg h, if_neg h, ih]

theorem lastValFor_cons (k2 k v : String) (t : List (String × String)) :
    lastValFor k2 ((k, v) :: t) =
      if k2 = k then some ((lastValFor k t).getD v) else lastValFor k2 t := by
  by_cases hk : k2 = k
  · subst hk
    rw [if_pos rfl, lastValFor, lastValFor]
    rw [List.filter_cons, if_pos (by simp)]
    rw [List.getLast?_cons]
    cases hl : (t.filter (fun kv => kv.1 = k2)).getLast? with
    | none => simp [hl]
    | some p => simp [hl]
  · rw [if_neg hk, lastValFor, lastValFor]
    rw [List.filter_cons, if_neg (by simp; exact fun h => hk h.symm)]

theorem firstOccKeys_nodup (s : List (String × String)) : (firstOccKeys s).Nodup := by
  induction s with
  | nil => exact List.nodup_nil
  | cons kv t ih =>
    obtain ⟨k, v⟩ := kv
    rw [firstOccKeys]
    rw [List.nodup_cons]
    constructor
    · intro hmem
      rw [List.mem_filter] at hmem
      simp at hmem
    · exact ih.filter _

theorem foldl_jsMapSet_keys (s : List (String × String)) :
    ∀ m, keysOf (s.foldl (fun acc kv => jsMapSet acc kv.1 kv.2) m) =
      keysOf m ++ (firstOccKeys s).filter (fun k2 => decide (k2 ∉ keysOf m)) := by
  induction s with
  | nil =>
    intro m
    simp [firstOccKeys]
  | cons kv t ih =>
    intro m
    obtain ⟨k, v⟩ := kv
    rw [List.foldl_cons]
    rw [ih (jsMapSet m k v)]
    rw [jsMapSet_keys]
    rw [firstOccKeys]
    by_cases hin : k ∈ keysOf m
    · rw [if_pos hin]
      rw [List.filter_cons, if_neg (by simp [hin])]
      rw [List.filter_filter]
      congr 1
      apply List.filter_congr
      intro a _
      by_cases ha : a ∈ keysOf m
      · simp [ha]
      · have hak : a ≠ k := fun e => ha (e ▸ hin)
        simp [ha, hak]
    · rw [if_neg hin]
      rw [List.filter_cons, if_pos (by simp [hin])]
      rw [List.append_assoc, List.singleton_append]
      congr 1
      rw [List.filter_filter]
      congr 1
      apply List.filter_congr
      intro a _
      by_cases hak : a = k
      · subst hak
        simp
      · by_cases ha : a ∈ keysOf m
        · simp [ha, hak]
        · simp [ha, hak]

theorem foldl_jsMapSet_lookup (s : List (String × String)) :
    ∀ m k2, lookupVal k2 (s.foldl (fun acc kv => jsMapSet acc kv.1 kv.2) m) =
      (lastValFor k2 s).or (lookupVal k2 m) := by
  induction s with
  | nil =>
    intro m k2
    rw [List.foldl_nil, lastValFor]
    simp
  | cons kv t ih =>
    intro m k2
    obtain ⟨k, v⟩ := kv
    rw [List.foldl_cons, ih (jsMapSet m k v) k2, lookupVal_jsMapSet, lastValFor_cons]
    by_cases hk : k2 = k
    · rw [if_pos hk, if_pos hk]
      cases hl : lastValFor k t with
      | none => simp [hk, hl]
      | some w => simp [hk, hl]
    · rw [if_neg hk, if_neg hk]

theorem assoc_snd_eq (m : List (String × String)) (h : (keysOf m).Nodup) :
    m.map (·.2) = (keysOf m).map (fun k => (lookupVal k m).getD "") := by
  induction m with
  | nil => rfl
  | cons kv t ih =>
    obtain ⟨k, v⟩ := kv
    have hkeys : keysOf ((k, v) :: t) = k :: keysOf t := rfl
    rw [hkeys] at h ⊢
    rw [List.nodup_cons] at h
    obtain ⟨hk, ht⟩ := h
    rw [List.map_cons, List.map_cons]
    congr 1
    · rw [lookupVal_cons, if_pos rfl]
      rfl
    · rw [ih ht]
      apply List.map_congr_left
      intro a ha
      have hak : ¬ k = a := fun e => hk (e ▸ ha)
      rw [lookupVal_cons, if_neg hak]

theorem mergedSetStatements_eq_spec (layouts : List Layout) (pp : List String) :
    mergedSetStatements layouts pp = specMergedDirectives (dirStream layouts pp) := by
  rw [mergedSetStatements, specMergedDirectives]
  have hnodup : (keysOf ((dirStream layouts pp).foldl
      (fun acc kv => jsMapSet acc kv.1 kv.2) [])).Nodup := by
    rw [foldl_jsMapSet_keys]
    have hfix : (firstOccKeys (dirStream layouts pp)).filter
        (fun k2 => decide (k2 ∉ keysOf [])) = firstOccKeys (dirStream layouts pp) := by
      apply List.filter_eq_self.mpr
      intro a _
      simp [keysOf]
    rw [hfix]
    have : keysOf ([] : List (String × String)) = [] := rfl
    rw [this, List.nil_append]
    exact firstOccKeys_nodup _
  rw [assoc_snd_eq _ hnodup]
  rw [foldl_jsMapSet_keys]
  have hfix : (firstOccKeys (dirStream layouts pp)).filter
      (fun k2 => decide (k2 ∉ keysOf [])) = firstOccKeys (dirStream layouts pp) := by
    apply List.filter_eq_self.mpr
    intro a _
    simp [keysOf]
  rw [hfix]
  have hnil : keysOf ([] : List (String × String)) = [] := rfl
  rw [hnil, List.nil_append]
  apply List.map_congr_left
  intro a _
  rw [foldl_jsMapSet_lookup]
  have : lookupVal a ([] : List (String × String)) = none := rfl
  rw [this, Option.or_none]

/-- C1: for every layout list of length at least 2 (nearest-first), merge
composition emits exactly the merged `set` directives joined by newlines,
then the nearest (depth-0) layout's full rewritten source, then the page
body wrapped as the layout's single argument; the merged directives are
produced by a farthest-to-nearest pass (the reversed list), keyed by
directive kind, with a nearer contributor's directive replacing a farther
one's in place, emitted in first-seen order of that pass (so each kind
appears once, carrying the value of its last — nearest — contributor);
farther layouts contribute only these directives, never their full
bodies, and the nearest layout's rewritten source is emitted whole,
unaffected by the merging. -/
theorem composeDocument_merge_characterization (l0 l1 : Layout) (rest : List Layout)
    (body : String) (pp : List String) :
    composeDocument (.many (l0 :: l1 :: rest)) (.str body) pp "merge" =
      .ok (String.intercalate "\n" (mergedSetStatements (l0 :: l1 :: rest) pp)
        ++ "\n\n"
        ++ rewriteImports l0.source l0.pathArray pp
        ++ "\n\n#layout[\n"
        ++ rewriteImports body pp pp
        ++ "\n]") ∧
    mergedSetStatements (l0 :: l1 :: rest) pp =
      specMergedDirectives (dirStream (l0 :: l1 :: rest) pp) ∧
    dirStream (l0 :: l1 :: rest) pp =
      ((l0 :: l1 :: rest).reverse).flatMap (fun l =>
        (extractSetStatements (rewriteImports l.source l.pathArray pp)).filterMap
          (fun st => (keyOfSet st).map (fun k => (k, st)))) := by
  refine ⟨?_, mergedSetStatements_eq_spec _ _, rfl⟩
  rw [composeDocument]
  rw [if_neg (by decide), if_pos rfl]

theorem getLastD_mem (l : List String) (hl : l ≠ []) (d : String) :
    (l.getLast?).getD d ∈ l := by
  rw [List.getLast?_eq_getLast l hl]
  exact List.getLast_mem hl

theorem affLoop_total (depGraph : List (String × List String)) (uni : List String)
    (hkeys : ∀ k ∈ depGraph.map (fun e => e.1), k ∈ uni) :
    ∀ fuel s, (∀ x2 ∈ s.toCheck, x2 ∈ uni) →
      (depGraph.length + 1) * (uni.filter (fun x2 => decide (x2 ∉ s.checked))).length
          + s.toCheck.length < fuel →
      (affLoop depGraph fuel s).isSome = true := by
  intro fuel
  induction fuel with
  | zero =>
    intro s _ hm
    exact absurd hm (Nat.not_lt_zero _)
  | succ n ih =>
    intro s hinv hm
    rw [affLoop]
    by_cases hE : s.toCheck.isEmpty
    · rw [if_pos hE]
      rfl
    · rw [if_neg hE]
      have hne : s.toCheck ≠ [] := fun h0 => by
        rw [h0] at hE
        exact hE rfl
      have hcur_mem : (s.toCheck.getLast?).getD "" ∈ s.toCheck :=
        getLastD_mem _ hne _
      have hcur_uni : (s.toCheck.getLast?).getD "" ∈ uni := hinv _ hcur_mem
      by_cases hchk : (s.toCheck.getLast?).getD "" ∈ s.checked
      · rw [if_pos hchk]
        apply ih
        · intro x2 hx2
          exact hinv _ ((List.dropLast_sublist _).subset hx2)
        · dsimp only
          have htl : s.toCheck.dropLast.length = s.toCheck.length - 1 :=
            List.length_dropLast _
          have hlen1 : 1 ≤ s.toCheck.length := List.length_pos.mpr hne
          omega
      · rw [if_neg hchk]
        apply ih
        · intro x2 hx2
          dsimp only at hx2
          rcases List.mem_append.mp hx2 with h1 | h2
          · exact hinv _ ((List.dropLast_sublist _).subset h1)
          · rcases List.mem_map.mp h2 with ⟨e, he, rfl⟩
            exact hkeys _ (List.mem_map.mpr ⟨e, (List.mem_filter.mp he).1, rfl⟩)
        · dsimp only
          have hfilt : (uni.filter (fun x2 =>
                decide (x2 ∉ s.checked ++ [(s.toCheck.getLast?).getD ""]))).length + 1 ≤
              (uni.filter (fun x2 => decide (x2 ∉ s.checked))).length := by
            have hsub : uni.filter (fun x2 =>
                  decide (x2 ∉ s.checked ++ [(s.toCheck.getLast?).getD ""])) =
                (uni.filter (fun x2 => decide (x2 ∉ s.checked))).filter
                  (fun x2 => decide (x2 ≠ (s.toCheck.getLast?).getD "")) := by
              rw [List.filter_filter]
              apply List.filter_congr
              intro a _
              by_cases h1 : a ∈ s.checked
              · simp [h1]
              · by_cases h2 : a = (s.toCheck.getLast?).getD ""
                · simp [h1, h2]
                · simp [h1, h2]
            rw [hsub]
            have hmemf : (s.toCheck.getLast?).getD "" ∈
                uni.filter (fun x2 => decide (x2 ∉ s.checked)) :=
              List.mem_filter.mpr ⟨hcur_uni, by simp [hchk]⟩
            have hlt : ((uni.filter (fun x2 => decide (x2 ∉ s.checked))).filter
                  (fun x2 => decide (x2 ≠ (s.toCheck.getLast?).getD ""))).length <
                (uni.filter (fun x2 => decide (x2 ∉ s.checked))).length :=
              List.length_filter_lt_length_iff_exists.mpr
                ⟨(s.toCheck.getLast?).getD "", hmemf, by simp⟩
            omega
          have hhits : ((depGraph.filter
              (fun e => (s.toCheck.getLast?).getD "" ∈ e.2)).map (fun e => e.1)).length ≤
              depGraph.length := by
            rw [List.length_map]
            exact List.length_filter_le _ _
          have hmul : (depGraph.length + 1) * ((uni.filter (fun x2 =>
                decide (x2 ∉ s.checked ++ [(s.toCheck.getLast?).getD ""]))).length + 1) ≤
              (depGraph.length + 1) * (uni.filter
                (fun x2 => decide (x2 ∉ s.checked))).length :=
            Nat.mul_le_mul_left _ hfilt
          rw [Nat.mul_add, Nat.mul_one] at hmul
          have htl : s.toCheck.dropLast.length = s.toCheck.length - 1 :=
            List.length_dropLast _
          have hlen1 : 1 ≤ s.toCheck.length := List.length_pos.mpr hne
          rw [List.length_append, htl]
          omega

theorem isEmpty_true_iff (l : List String) : l.isEmpty = true ↔ l = [] := by
  cases l <;> simp

theorem jsSetAdd_mem_mono (l : List String) (x y : String) (h : y ∈ l) :
    y ∈ jsSetAdd l x := by
  rw [jsSetAdd]
  by_cases hx : x ∈ l
  · rw [if_pos hx]
    exact h
  · rw [if_neg hx]
    exact List.mem_append_left _ h

theorem jsSetAdd_mem_self (l : List String) (x : String) : x ∈ jsSetAdd l x := by
  rw [jsSetAdd]
  by_cases hx : x ∈ l
  · rw [if_pos hx]
    exact hx
  · rw [if_neg hx]
    exact List.mem_append_right _ (by simp)

theorem foldl_jsSetAdd_mono (hits : List String) :
    ∀ l y, y ∈ l → y ∈ hits.foldl jsSetAdd l := by
  induction hits with
  | nil =>
    intro l y h
    exact h
  | cons h0 t ih =>
    intro l y h
    rw [List.foldl_cons]
    exact ih _ _ (jsSetAdd_mem_mono _ _ _ h)

theorem foldl_jsSetAdd_mem (hits : List String) :
    ∀ l x, x ∈ hits → x ∈ hits.foldl jsSetAdd l := by
  induction hits with
  | nil =>
    intro l x h
    exact absurd h (List.not_mem_nil x)
  | cons h0 t ih =>
    intro l x h
    rw [List.foldl_cons]
    rcases List.mem_cons.mp h with h1 | h2
    · subst h1
      exact foldl_jsSetAdd_mono t _ _ (jsSetAdd_mem_self l x)
    · exact ih _ _ h2

theorem mem_dropLast_or_getLast (l : List String) (hl : l ≠ []) (x : String)
    (hx : x ∈ l) : x ∈ l.dropLast ∨ x = (l.getLast?).getD "" := by
  rw [List.getLast?_eq_getLast l hl]
  simp only [Option.getD_some]
  rw [← List.dropLast_append_getLast hl] at hx
  rcases List.mem_append.mp hx with h | h
  · exact Or.inl h
  · simp only [List.mem_singleton] at h
    exact Or.inr h

theorem affLoop_final_empty (depGraph : List (String × List String)) :
    ∀ fuel s s2, affLoop depGraph fuel s = some s2 → s2.toCheck = [] := by
  intro fuel
  induction fuel with
  | zero =>
    intro s s2 h
    rw [affLoop] at h
    by_cases hE : s.toCheck.isEmpty
    · rw [if_pos hE] at h
      cases h
      exact (isEmpty_true_iff _).mp hE
    · rw [if_neg hE] at h
      exact absurd h (by simp)
  | succ n ih =>
    intro s s2 h
    rw [affLoop] at h
    by_cases hE : s.toCheck.isEmpty
    · rw [if_pos hE] at h
      cases h
      exact (isEmpty_true_iff _).mp hE
    · rw [if_neg hE] at h
      by_cases hchk : (s.toCheck.getLast?).getD "" ∈ s.checked
      · rw [if_pos hchk] at h
        exact ih _ _ h
      · rw [if_neg hchk] at h
        exact ih _ _ h

theorem affLoop_mono (depGraph : List (String × List String)) :
    ∀ fuel s s2, affLoop depGraph fuel s = some s2 →
      (∀ x, x ∈ s.checked → x ∈ s2.checked) ∧
      (∀ x, x ∈ s.affected → x ∈ s2.affected) := by
  intro fuel
  induction fuel with
  | zero =>
    intro s s2 h
    rw [affLoop] at h
    by_cases hE : s.toCheck.isEmpty
    · rw [if_pos hE] at h
      cases h
      exact ⟨fun x hx => hx, fun x hx => hx⟩
    · rw [if_neg hE] at h
      exact absurd h (by simp)
  | succ n ih =>
    intro s s2 h
    rw [affLoop] at h
    by_cases hE : s.toCheck.isEmpty
    · rw [if_pos hE] at h
      cases h
      exact ⟨fun x hx => hx, fun x hx => hx⟩
    · rw [if_neg hE] at h
      by_cases hchk : (s.toCheck.getLast?).getD "" ∈ s.checked
      · rw [if_pos hchk] at h
        have hrec := ih _ _ h
        exact hrec
      · rw [if_neg hchk] at h
        obtain ⟨hc, ha⟩ := ih _ _ h
        constructor
        · intro x hx
          exact hc x (List.mem_append_left _ hx)
        · intro x hx
          exact ha x (foldl_jsSetAdd_mono _ _ _ hx)

theorem affLoop_processed (depGraph : List (String × List String)) :
    ∀ fuel s s2, affLoop depGraph fuel s = some s2 →
      ∀ x, x ∈ s.toCheck → x ∈ s2.checked := by
  intro fuel
  induction fuel with
  | zero =>
    intro s s2 h x hx
    rw [affLoop] at h
    by_cases hE : s.toCheck.isEmpty
    · rw [(isEmpty_true_iff _).mp hE] at hx
      exact absurd hx (List.not_mem_nil x)
    · rw [if_neg hE] at h
      exact absurd h (by simp)
  | succ n ih =>
    intro s s2 h x hx
    rw [affLoop] at h
    by_cases hE : s.toCheck.isEmpty
    · rw [(isEmpty_true_iff _).mp hE] at hx
      exact absurd hx (List.not_mem_nil x)
    · rw [if_neg hE] at h
      have hne : s.toCheck ≠ [] := fun h0 => hE (by rw [h0]; rfl)
      by_cases hchk : (s.toCheck.getLast?).getD "" ∈ s.checked
      · rw [if_pos hchk] at h
        have hrec := ih _ _ h
        rcases mem_dropLast_or_getLast _ hne x hx with h1 | h2
        · exact hrec x h1
        · subst h2
          exact (affLoop_mono depGraph n _ _ h).1 _ hchk
      · rw [if_neg hchk] at h
        have hrec := ih _ _ h
        rcases mem_dropLast_or_getLast _ hne x hx with h1 | h2
        · exact hrec x (List.mem_append_left _ h1)
        · subst h2
          exact (affLoop_mono depGraph n _ _ h).1 _ (List.mem_append_right _ (by simp))

theorem affLoop_inv (depGraph : List (String × List String)) :
    ∀ fuel s s2, affInv depGraph s → affLoop depGraph fuel s = some s2 →
      affInv depGraph s2 := by
  intro fuel
  induction fuel with
  | zero =>
    intro s s2 hinv h
    rw [affLoop] at h
    by_cases hE : s.toCheck.isEmpty
    · rw [if_pos hE] at h
      cases h
      exact hinv
    · rw [if_neg hE] at h
      exact absurd h (by simp)
  | succ n ih =>
    intro s s2 hinv h
    rw [affLoop] at h
    by_cases hE : s.toCheck.isEmpty
    · rw [if_pos hE] at h
      cases h
      exact hinv
    · rw [if_neg hE] at h
      have hne : s.toCheck ≠ [] := fun h0 => hE (by rw [h0]; rfl)
      by_cases hchk : (s.toCheck.getLast?).getD "" ∈ s.checked
      · rw [if_pos hchk] at h
        apply ih _ _ _ h
        intro c hc e he hce
        obtain ⟨ha, hside⟩ := hinv c hc e he hce
        refine ⟨ha, ?_⟩
        rcases hside with h1 | h2
        · exact Or.inl h1
        · rcases mem_dropLast_or_getLast _ hne _ h2 with h3 | h4
          · exact Or.inr h3
          · exact Or.inl (by rw [h4]; exact hchk)
      · rw [if_neg hchk] at h
        apply ih _ _ _ h
        intro c hc e he hce
        dsimp only at hc ⊢
        rcases List.mem_append.mp hc with hc1 | hc2
        · obtain ⟨ha, hside⟩ := hinv c hc1 e he hce
          refine ⟨foldl_jsSetAdd_mono _ _ _ ha, ?_⟩
          rcases hside with h1 | h2
          · exact Or.inl (List.mem_append_left _ h1)
          · rcases mem_dropLast_or_getLast _ hne _ h2 with h3 | h4
            · exact Or.inr (List.mem_append_left _ h3)
            · exact Or.inl (by rw [h4]; exact List.mem_append_right _ (by simp))
        · simp only [List.mem_singleton] at hc2
          subst hc2
          have hef : e ∈ depGraph.filter
              (fun e2 => (s.toCheck.getLast?).getD "" ∈ e2.2) :=
            List.mem_filter.mpr ⟨he, by simp [hce]⟩
          have hhit : e.1 ∈ (depGraph.filter
              (fun e2 => (s.toCheck.getLast?).getD "" ∈ e2.2)).map (fun e2 => e2.1) :=
            List.mem_map.mpr ⟨e, hef, rfl⟩
          exact ⟨foldl_jsSetAdd_mem _ _ _ hhit, Or.inr (List.mem_append_right _ hhit)⟩

theorem affected_closure (depGraph : List (String × List String))
    (x y z : String) (dx dy : List String) (s2 : AffState)
    (hx : (x, dx) ∈ depGraph) (hy : y ∈ dx)
    (hyz : (y, dy) ∈ depGraph) (hz : z ∈ dy)
    (hrun : affLoop depGraph (affFuel depGraph) ⟨[z], [], []⟩ = some s2) :
    x ∈ s2.affected := by
  have hinv0 : affInv depGraph ⟨[z], [], []⟩ := by
    intro c hc
    exact absurd hc (List.not_mem_nil c)
  have hinv2 := affLoop_inv depGraph _ _ _ hinv0 hrun
  have hempty := affLoop_final_empty depGraph _ _ _ hrun
  have hzchk : z ∈ s2.checked :=
    affLoop_processed depGraph _ _ _ hrun z (by simp)
  obtain ⟨hyaff, hyside⟩ := hinv2 z hzchk (y, dy) hyz hz
  have hychk : y ∈ s2.checked := by
    rcases hyside with h1 | h2
    · exact h1
    · rw [hempty] at h2
      exact absurd h2 (List.not_mem_nil y)
  exact (hinv2 y hychk (x, dx) hx hy).1

/-- C3: the affected-pages computation terminates on every finite
dependency graph and changed file key (the worklist loop tracks checked
nodes, and the fuel bound derived from the graph size always suffices);
on the concrete cycle X→Y→X a change to X returns both pages exactly once
each; and the affected set is transitively closed: whenever X depends on
Y and Y depends on Z in the graph, a change to Z marks X as affected even
though X never directly references Z. -/
theorem findAffectedPages_props :
    (∀ (changedFile : String) (depGraph : List (String × List String))
        (pagesTree : JsTree) (pagesRel : String),
      (findAffectedPages changedFile depGraph pagesTree pagesRel).isSome = true) ∧
    findAffectedPages "pages/x.typ" cycleGraph cycleTree "pages" =
      some [(["y.typ"], "= Y"), (["x.typ"], "= X")] ∧
    (∀ (depGraph : List (String × List String)) (x y z : String) (s2 : AffState),
      dependsOn depGraph x y → dependsOn depGraph y z →
      affLoop depGraph (affFuel depGraph) ⟨[z], [], []⟩ = some s2 →
      x ∈ s2.affected) := by
  refine ⟨?_, by decide, ?_⟩
  · intro changedFile depGraph pagesTree pagesRel
    have htot := affLoop_total depGraph (changedFile :: depGraph.map (fun e => e.1))
      (fun k hk => List.mem_cons_of_mem _ hk) (affFuel depGraph)
      ⟨[changedFile], [], []⟩
      (by
        intro x2 hx2
        simp only [List.mem_singleton] at hx2
        subst hx2
        exact List.mem_cons_self _ _)
      (by
        dsimp only
        have hfix : (changedFile :: depGraph.map (fun e => e.1)).filter
            (fun x2 => decide (x2 ∉ ([] : List String))) =
            changedFile :: depGraph.map (fun e => e.1) := by
          apply List.filter_eq_self.mpr
          intro a _
          simp
        rw [hfix]
        rw [List.length_cons, List.length_map]
        rw [affFuel]
        have hkey : (depGraph.length + 1) * (depGraph.length + 2) =
            (depGraph.length + 1) * (depGraph.length + 1) + (depGraph.length + 1) := by
          ring
        simp only [List.length_singleton]
        omega)
    rw [findAffectedPages]
    cases hA : affLoop depGraph (affFuel depGraph) ⟨[changedFile], [], []⟩ with
    | none =>
      rw [hA] at htot
      exact absurd htot (by simp)
    | some sEnd =>
      rfl
  · intro depGraph x y z s2 hxy hyz hrun
    obtain ⟨dx, hx, hy⟩ := hxy
    obtain ⟨dy, hy2, hz⟩ := hyz
    exact affected_closure depGraph x y z dx dy s2 hx hy hy2 hz hrun

/-- Witness for C3's transitive-closure clause at the concrete chain
X→Y→Z: a change to `pages/z.typ` marks `pages/x.typ` as affected. -/
theorem findAffectedPages_props_witness :
    dependsOn chainGraph "pages/x.typ" "pages/y.typ" ∧
    dependsOn chainGraph "pages/y.typ" "pages/z.typ" ∧
    (affLoop chainGraph (affFuel chainGraph) ⟨["pages/z.typ"], [], []⟩ =
      some ⟨[], ["pages/z.typ", "pages/y.typ", "pages/x.typ"],
            ["pages/y.typ", "pages/x.typ"]⟩) ∧
    "pages/x.typ" ∈ (AffState.mk [] ["pages/z.typ", "pages/y.typ", "pages/x.typ"]
        ["pages/y.typ", "pages/x.typ"]).affected :=
  ⟨⟨["pages/y.typ"], by decide, by decide⟩,
   ⟨["pages/z.typ"], by decide, by decide⟩,
   by decide,
   findAffectedPages_props.2.2 chainGraph "pages/x.typ" "pages/y.typ" "pages/z.typ"
     ⟨[], ["pages/z.typ", "pages/y.typ", "pages/x.typ"],
      ["pages/y.typ", "pages/x.typ"]⟩
     ⟨["pages/y.typ"], by decide, by decide⟩
     ⟨["pages/z.typ"], by decide, by decide⟩
     (by decide)⟩

theorem dropLast_map_comm {α β : Type} (f : α → β) :
    ∀ l : List α, (l.map f).dropLast = l.dropLast.map f := by
  intro l
  induction l with
  | nil => rfl
  | cons a t ih =>
    cases t with
    | nil => rfl
    | cons b t2 =>
      simp only [List.map_cons, List.dropLast_cons₂]
      simp only [List.map_cons] at ih
      rw [ih]

theorem isEmpty_map_comm {α β : Type} (f : α → β) (l : List α) :
    (l.map f).isEmpty = l.isEmpty := by
  cases l <;> rfl

theorem slash_wrapped (a : String) :
    beginsWithSlash ("/" ++ a ++ "/") = true ∧ endsWithSlash ("/" ++ a ++ "/") = true := by
  constructor
  · rw [show ("/" : String) ++ a ++ "/" = "/" ++ (a ++ "/") from by
      simp [String.append_assoc]]
    exact beginsWithSlash_append _
  · exact endsWithSlash_append _

theorem pathToRouteVal_str_last_ok (vals : List JsVal) (l : String)
    (hl : vals.getLast? = some (JsVal.str l)) :
    ∃ r, pathToRouteVal (.arr vals) = .ok r ∧
      beginsWithSlash r = true ∧ endsWithSlash r = true := by
  rw [pathToRouteVal, hl]
  dsimp only
  by_cases hidx : l = "index.typ"
  · rw [if_pos hidx]
    by_cases hpe : vals.dropLast.isEmpty
    · rw [if_pos hpe]
      exact ⟨"/", rfl, by decide, by decide⟩
    · rw [if_neg hpe]
      exact ⟨_, rfl, (slash_wrapped _).1, (slash_wrapped _).2⟩
  · rw [if_neg hidx]
    by_cases hpe : vals.dropLast.isEmpty
    · rw [if_pos hpe]
      exact ⟨_, rfl, (slash_wrapped _).1, (slash_wrapped _).2⟩
    · rw [if_neg hpe]
      refine ⟨_, rfl, ?_, ?_⟩
      · rw [show ("/" : String) ++
            String.intercalate "/" (vals.dropLast.map jsValToJoinString) ++ "/" ++
            jsBasename l (jsExtname l) ++ "/" =
            "/" ++ (String.intercalate "/" (vals.dropLast.map jsValToJoinString) ++ "/" ++
            jsBasename l (jsExtname l) ++ "/") from by
          simp [String.append_assoc]]
        exact beginsWithSlash_append _
      · exact endsWithSlash_append _

/-- C10 counterexample: `pathToRoute` is not total over every input
value — for the array `[42]`, the strict comparison with `"index.typ"`
fails, the else branch reaches `path.extname(42)`, and Node throws a
`TypeError` instead of returning a route. -/
theorem pathToRouteVal_nonstring_last_throws :
    pathToRouteVal (.arr [JsVal.num 42]) =
      .error "TypeError [ERR_INVALID_ARG_TYPE]: The \"path\" argument must be of type string" ∧
    ¬ ∃ r, pathToRouteVal (.arr [JsVal.num 42]) = Except.ok r := by
  refine ⟨rfl, ?_⟩
  rintro ⟨r, hr⟩
  simp [pathToRouteVal] at hr

/-- C10 (amended): `pathToRoute` returns a route beginning and ending
with `/` for every non-array input, the empty array, and every array
whose last element is a string — in particular for every array of
strings, where it agrees with the string-array embedding — and
non-array / empty-array inputs return exactly `/`.  It is *not* total
over every input value: it throws precisely when the array is non-empty
and its last element is not a string (Node's `path.extname` rejects
non-strings). -/
theorem pathToRouteVal_total_iff_string_last (vals : List JsVal) (xs : List String) :
    pathToRouteVal (.arr (xs.map JsVal.str)) = .ok (pathToRoute xs) ∧
    pathToRouteVal .notArray = .ok "/" ∧
    pathToRouteVal (.arr []) = .ok "/" ∧
    ((∃ e, pathToRouteVal (.arr vals) = .error e) ↔
      ∃ v, vals.getLast? = some v ∧ ∀ s, v ≠ JsVal.str s) ∧
    (∀ r, pathToRouteVal (.arr vals) = .ok r →
      beginsWithSlash r = true ∧ endsWithSlash r = true) := by
  refine ⟨?_, rfl, rfl, ⟨?_, ?_⟩, ?_⟩
  · rcases hl : xs.getLast? with _ | l
    · have hxs : xs = [] := by
        cases xs with
        | nil => rfl
        | cons a t =>
          rw [List.getLast?_eq_getLast _ (by simp)] at hl
          exact absurd hl (by simp)
      subst hxs
      rfl
    · have hne : xs ≠ [] := by
        intro h0
        subst h0
        simp at hl
      have hxe : xs.isEmpty = false := by
        cases xs with
        | nil => exact absurd rfl hne
        | cons a t => rfl
      have hlm : (xs.map JsVal.str).getLast? = some (JsVal.str l) := by
        rw [List.getLast?_map, hl]
        rfl
      have hjoin : (xs.dropLast.map JsVal.str).map jsValToJoinString = xs.dropLast := by
        rw [List.map_map]
        rw [List.map_congr_left (fun a _ => (rfl : (jsValToJoinString ∘ JsVal.str) a = a))]
        exact List.map_id _
      have h2pre : pathToRoute xs =
          (if l = "index.typ" then
            (if xs.dropLast.isEmpty then "/"
             else "/" ++ String.intercalate "/" xs.dropLast ++ "/")
          else
            (if xs.dropLast.isEmpty then
              "/" ++ jsBasename l (jsExtname l) ++ "/"
             else "/" ++ String.intercalate "/" xs.dropLast ++ "/" ++
               jsBasename l (jsExtname l) ++ "/")) := by
        rw [pathToRoute]
        rw [if_neg (by simp [hxe])]
        dsimp only
        rw [hl]
        rfl
      by_cases hidx : l = "index.typ"
      · rw [h2pre, if_pos hidx]
        rw [pathToRouteVal, hlm]
        dsimp only
        rw [if_pos hidx]
        by_cases hpe : xs.dropLast.isEmpty
        · rw [if_pos (by rw [dropLast_map_comm, isEmpty_map_comm]; exact hpe),
            if_pos hpe]
        · rw [if_neg (by rw [dropLast_map_comm, isEmpty_map_comm]; simpa using hpe),
            if_neg hpe]
          rw [dropLast_map_comm, hjoin]
      · rw [h2pre, if_neg hidx]
        rw [pathToRouteVal, hlm]
        dsimp only
        rw [if_neg hidx]
        by_cases hpe : xs.dropLast.isEmpty
        · rw [if_pos (by rw [dropLast_map_comm, isEmpty_map_comm]; exact hpe),
            if_pos hpe]
        · rw [if_neg (by rw [dropLast_map_comm, isEmpty_map_comm]; simpa using hpe),
            if_neg hpe]
          rw [dropLast_map_comm, hjoin]
  · rintro ⟨e, he⟩
    rcases hl : vals.getLast? with _ | v
    · rw [pathToRouteVal, hl] at he
      exact absurd he (by simp)
    · cases v with
      | str s =>
        obtain ⟨r, hr, -, -⟩ := pathToRouteVal_str_last_ok vals s hl
        rw [hr] at he
        exact absurd he (by simp)
      | undef => exact ⟨_, rfl, fun s hs => JsVal.noConfusion hs⟩
      | nullv => exact ⟨_, rfl, fun s hs => JsVal.noConfusion hs⟩
      | num n => exact ⟨_, rfl, fun s hs => JsVal.noConfusion hs⟩
      | boolean b => exact ⟨_, rfl, fun s hs => JsVal.noConfusion hs⟩
  · rintro ⟨v, hl, hns⟩
    rw [pathToRouteVal, hl]
    cases v with
    | str s => exact absurd rfl (hns s)
    | undef => exact ⟨_, rfl⟩
    | nullv => exact ⟨_, rfl⟩
    | num n => exact ⟨_, rfl⟩
    | boolean b => exact ⟨_, rfl⟩
  · intro r hr
    rcases hl : vals.getLast? with _ | v
    · rw [pathToRouteVal, hl] at hr
      have : r = "/" := by
        simpa using hr.symm
      subst this
      exact ⟨by decide, by decide⟩
    · cases v with
      | str s =>
        obtain ⟨r2, hr2, hb, he2⟩ := pathToRouteVal_str_last_ok vals s hl
        rw [hr2] at hr
        have : r2 = r := by
          simpa using hr
        subst this
        exact ⟨hb, he2⟩
      | undef =>
        rw [pathToRouteVal, hl] at hr
        exact absurd hr (by simp)
      | nullv =>
        rw [pathToRouteVal, hl] at hr
        exact absurd hr (by simp)
      | num n =>
        rw [pathToRouteVal, hl] at hr
        exact absurd hr (by simp)
      | boolean b =>
        rw [pathToRouteVal, hl] at hr
        exact absurd hr (by simp)

/-- Witness for C10's amended theorem at a concrete two-element string
array, discharging the slash-shape implication at its produced route. -/
theorem pathToRouteVal_total_iff_string_last_witness :
    pathToRouteVal (.arr [JsVal.str "a", JsVal.str "b.typ"]) = Except.ok "/a/b/" ∧
    beginsWithSlash "/a/b/" = true ∧ endsWithSlash "/a/b/" = true :=
  ⟨rfl,
   (pathToRouteVal_total_iff_string_last [JsVal.str "a", JsVal.str "b.typ"]
     ["x"]).2.2.2.2 "/a/b/" rfl⟩
